import Mathlib

/-!
A verification development for the `fluentpy` value-wrapping and combinator
library (`fluentpy/wrapper.py`).  The definitions below are a shallow
embedding of the module's core mechanisms:

* the `wrap` factory's first-match capability classification,
* the `Wrapper.self` cascading accessor over the chain of wrapper nodes,
* `CallableWrapper.__call__` through the `wrapped` decorator,
* the `CallableWrapper.curry` placeholder merging engine
  (`merge_arguments`), and
* the `EachWrapper` lazy combinator builder with its operator methods
  (`_make_operator`).

Python's heterogeneous runtime values are modelled with explicit inductive
types; the assertion failures of the curry engine are modelled with
`Except`.
-/

set_option autoImplicit false

namespace FluentPy

/-! ## Capability classification (`wrap`, wrapper.py lines 34-50)

A runtime value is abstracted to the tuple of duck-type predicates that
`wrap`'s `by_type` table tests with `isinstance`.  The predicates are
independent: one value may satisfy several of them (e.g. a dict is both a
mapping and iterable). -/

/-- The `isinstance` facts `wrap` can observe about a value: one flag per
entry of the `by_type` table. -/
structure DuckType where
  isModule : Bool
  isText : Bool
  isMapping : Bool
  isSet : Bool
  isIterable : Bool
  isCallable : Bool
  deriving Repr, DecidableEq

/-- The wrapper class chosen by `wrap`; `wrapper` is the plain `Wrapper`
default used when no predicate matches. -/
inductive Category where
  | module
  | text
  | mapping
  | set
  | iterable
  | callable
  | wrapper
  deriving Repr, DecidableEq

/-- The ordered `by_type` table of `wrap`: predicate paired with the wrapper
class it selects, in source order. -/
def byType : List ((DuckType → Bool) × Category) :=
  [ (DuckType.isModule, Category.module),
    (DuckType.isText, Category.text),
    (DuckType.isMapping, Category.mapping),
    (DuckType.isSet, Category.set),
    (DuckType.isIterable, Category.iterable),
    (DuckType.isCallable, Category.callable) ]

/-- The `for clazz, wrapper in by_type` loop of `wrap`: first predicate that
holds wins, plain `Wrapper` is the fallthrough. -/
def firstMatch (t : DuckType) : List ((DuckType → Bool) × Category) → Category
  | [] => Category.wrapper
  | (p, c) :: rest => if p t then c else firstMatch t rest

/-- `wrap`'s classification of a (non-wrapper) value. -/
def classify (t : DuckType) : Category :=
  firstMatch t byType

/-- Modelled from the spec: the ordering policy stated in words, module-like
over text-like over mapping-like over set-like over general-iterable over
callable over the plain default.  Used only to compare against `classify`. -/
def classifyByOrderingPolicy (t : DuckType) : Category :=
  if t.isModule then Category.module
  else if t.isText then Category.text
  else if t.isMapping then Category.mapping
  else if t.isSet then Category.set
  else if t.isIterable then Category.iterable
  else if t.isCallable then Category.callable
  else Category.wrapper

/-! ## The wrapper chain and the cascading `self` accessor
(`Wrapper.self`, wrapper.py lines 196-218)

The expression `wrap(v).f()` builds a three node chain: the root node
wrapping the object, a `CallableWrapper` node wrapping the bound method
produced by `Wrapper.__getattr__`, and the node wrapping the method's
return value.  The wrapped object is mutable, so the root node is modelled
as a reference that is dereferenced against the current object state. -/

/-- A host-object method: its side effect on the receiver and its return
value, where `none` models Python's `None` (a void return). -/
structure MethodSim (α β : Type) where
  effect : α → α
  ret : α → Option β

/-- The payload of one chain node in the `wrap(v).f()` expression. -/
inductive ChainVal (α β : Type) where
  | obj
  | method (m : MethodSim α β)
  | result (r : Option β)

/-- One wrapper node: payload plus the back-pointer injected as
`previous=` at construction time. -/
inductive Chain (α β : Type) where
  | node (value : ChainVal α β) (previous : Option (Chain α β))

/-- Whether the node's payload classifies as a `CallableWrapper` under
`wrap`: bound methods are callable, the object and a method's return value
in this expression are not. -/
def ChainVal.isCallableWrapper {α β : Type} : ChainVal α β → Bool
  | .method _ => true
  | _ => false

/-- `wrap(v)`: the root node, `previous=None`. -/
def wrapObj (α β : Type) : Chain α β :=
  Chain.node ChainVal.obj none

/-- `Wrapper.__getattr__` through `wrapped(getattr)`: wraps the bound method
looked up on the object, with `previous=self`. -/
def getattrMethod {α β : Type} (c : Chain α β) (m : MethodSim α β) : Chain α β :=
  Chain.node (ChainVal.method m) (some c)

/-- `CallableWrapper.__call__` through `wrapped`: invokes the bound method
(mutating the shared object) and wraps the return value with the callable
node as `previous`. -/
def callMethodNode {α β : Type} (s : α) (m : MethodSim α β) (callableNode : Chain α β) :
    α × Chain α β :=
  (m.effect s, Chain.node (ChainVal.result (m.ret s)) (some callableNode))

/-- The whole expression `wrap(v).f()`: final object state paired with the
final wrapper node. -/
def wrapCallExpr {α β : Type} (v : α) (m : MethodSim α β) : α × Chain α β :=
  callMethodNode v m (getattrMethod (wrapObj α β) m)

/-- The `Wrapper.self` property: if the previous wrapper is a
`CallableWrapper` go back two nodes, else one; `none` when there is no
previous node. -/
def Chain.selfAcc {α β : Type} : Chain α β → Option (Chain α β)
  | .node _ none => none
  | .node _ (some (Chain.node pv pprev)) =>
      if pv.isCallableWrapper then pprev else some (Chain.node pv pprev)

/-- The raw value `Wrapper.unwrap` returns, with the object dereferenced
against the current state. -/
inductive Unwrapped (α β : Type) where
  | obj (a : α)
  | method (m : MethodSim α β)
  | ret (r : Option β)

/-- `Wrapper.unwrap` of a node, given the current object state. -/
def Chain.unwrapAt {α β : Type} (s : α) : Chain α β → Unwrapped α β
  | .node ChainVal.obj _ => Unwrapped.obj s
  | .node (ChainVal.method m) _ => Unwrapped.method m
  | .node (ChainVal.result r) _ => Unwrapped.ret r

/-! ## Calling through the proxy (`CallableWrapper.__call__` via `wrapped`,
wrapper.py lines 64-77 and 365-368)

Here wrapper instances are first-class runtime values, so the value domain
is recursive: a value is either a plain object or a `Wrapper` holding a
value and a `previous` back-pointer. -/

/-- A Python value for the call path: a plain object (tagged by a number)
or a `Wrapper` instance. -/
inductive PyV where
  | obj (n : Nat)
  | wrapperV (value : PyV) (previous : Option PyV)

/-- `isinstance(x, Wrapper)`. -/
def PyV.isWrapper : PyV → Bool
  | .wrapperV _ _ => true
  | _ => false

/-- The `wrap` factory: a wrapper is returned unchanged (idempotent
wrapping), anything else is wrapped with the given `previous`. -/
def pyWrap (v : PyV) (previous : Option PyV) : PyV :=
  if v.isWrapper then v else PyV.wrapperV v previous

/-- `Wrapper.unwrap`. -/
def PyV.unwrapV : PyV → PyV
  | .wrapperV a _ => a
  | v => v

/-- `CallableWrapper.__call__` through the `wrapped` decorator: only the
receiver is unwrapped (the underlying function `f` is invoked on the
argument list exactly as given), and the result is wrapped with
`previous=self`. -/
def callThrough (fnode : PyV) (f : List PyV → PyV) (args : List PyV) : PyV :=
  pyWrap (f args) (some fnode)

/-- Modelled from the spec: `call(...args)` as the spec words it, namely
"unwrapping any ProxyNode arguments first" before invoking the underlying
function.  Used only to compare against `callThrough`. -/
def callThroughSpec (fnode : PyV) (f : List PyV → PyV) (args : List PyV) : PyV :=
  pyWrap (f (args.map PyV.unwrapV)) (some fnode)

/-- A probe function that can observe whether its argument arrived still
wrapped: wrappers map to `obj 0`, a plain object passes through. -/
def probeFn : List PyV → PyV
  | [PyV.wrapperV _ _] => PyV.obj 0
  | [PyV.obj n] => PyV.obj n
  | _ => PyV.obj 2

/-! ## The `each` combinator builder (`EachWrapper` and `_make_operator`,
wrapper.py lines 783-790 and 809-893) -/

/-- The builder: it holds the composed unary function stored (wrapped) in
`EachWrapper.__operation`. -/
structure EachB (α β : Type) where
  operation : α → β

/-- `CallableWrapper.compose`: `outer(inner(...))`. -/
def composeFn {α β γ : Type} (inner : α → β) (outer : β → γ) : α → γ :=
  fun x => outer (inner x)

/-- What a step on the builder can produce: another builder (`__getattr__`,
`__getitem__`, `__call__`) or, for operator methods, the auto-unwrapped
plain function. -/
inductive OperatorOutcome (α ρ : Type) where
  | chained (e : EachB α ρ)
  | plainFunction (f : α → ρ)

/-- `_make_operator`: the generated operator method composes
`operation(placeholder) = op(placeholder, other)` onto the stored stage and
immediately unwraps (`._`), returning a plain function. -/
def makeOperator {α β γ ρ : Type} (op : β → γ → ρ) (e : EachB α β) (operand : γ) :
    OperatorOutcome α ρ :=
  OperatorOutcome.plainFunction (composeFn e.operation (fun placeholder => op placeholder operand))

/-- `EachWrapper.__getattr__`: composes an attribute getter and stays a
builder. -/
def eachAttr {α β γ : Type} (e : EachB α β) (g : β → γ) : OperatorOutcome α γ :=
  OperatorOutcome.chained (EachB.mk (composeFn e.operation g))

/-- The exported `each` object: `EachWrapper(_(identity), name='each')`. -/
def eachIdentity (α : Type) : EachB α α :=
  EachB.mk (fun x => x)

/-! ## The curry placeholder engine
(`CallableWrapper.curry.merge_arguments`, wrapper.py lines 404-472)

A template entry is compared against the placeholder singletons by
identity, so an entry is exactly one of: a literal value, the generic hole
(`wrap` / `_`), a reordering placeholder `_k` (carrying the index it
wraps), or the variadic placeholder `_args`. -/

/-- One entry of the positional or keyword argument template handed to
`curry`. -/
inductive TemplateEntry (α : Type) where
  | lit (a : α)
  | hole
  | indexed (k : Nat)
  | splat
  deriving Repr, DecidableEq

/-- Membership in `all_placeholders`. -/
def TemplateEntry.isPlaceholder {α : Type} : TemplateEntry α → Bool
  | .lit _ => false
  | _ => true

/-- How many template entries are placeholders of any kind: the total
advance of `placeholder_index` over a template segment. -/
def countPH {α : Type} : List (TemplateEntry α) → Nat
  | [] => 0
  | e :: rest => (if e.isPlaceholder then 1 else 0) + countPH rest

/-- How many template entries are generic holes. -/
def countHoles {α : Type} : List (TemplateEntry α) → Nat
  | [] => 0
  | TemplateEntry.hole :: rest => countHoles rest + 1
  | _ :: rest => countHoles rest

/-- One entry of the merged argument list handed to the curried function: a
single value, or the tuple collected by the variadic placeholder. -/
inductive MergedArg (α : Type) where
  | val (a : α)
  | seq (s : List α)
  deriving Repr, DecidableEq

/-- The assertion failures `merge_arguments` can raise.
`insufficientArguments` carries the two counts of the message
`Need at least %i, got %i`. -/
inductive CurryError where
  | insufficientArguments (required received : Nat)
  | misplacedVariadicPlaceholder
  deriving Repr, DecidableEq

/-- The positional pass of `merge_arguments`.

State threaded through the walk: `n` is the number of placeholders
encountered so far (so the next value of `placeholder_index` is `n`), and
`u` is one plus the largest member of `used_arg_indexes` (`0` while the set
is empty).  `kwVals` are the values of `merged_default_kwargs`, needed by
`assert_is_last_keyword_placeholder(-1)` when the variadic placeholder is
met; a variadic placeholder must also be the very last positional entry
(`assert_is_last_positional_placeholder`). -/
def mergePositional {α : Type} [Inhabited α] (kwVals : List (TemplateEntry α))
    (actual : List α) :
    List (TemplateEntry α) → Nat → Nat →
    Except CurryError (List (MergedArg α) × Nat × Nat)
  | [], n, u => .ok ([], n, u)
  | TemplateEntry.lit a :: rest, n, u =>
      match mergePositional kwVals actual rest n u with
      | .ok (out, n', u') => .ok (MergedArg.val a :: out, n', u')
      | .error e => .error e
  | TemplateEntry.hole :: rest, n, u =>
      if n < actual.length then
        match mergePositional kwVals actual rest (n + 1) (max u (n + 1)) with
        | .ok (out, n', u') => .ok (MergedArg.val (actual.getD n default) :: out, n', u')
        | .error e => .error e
      else .error (CurryError.insufficientArguments (n + 1) actual.length)
  | TemplateEntry.indexed k :: rest, n, u =>
      if k < actual.length then
        match mergePositional kwVals actual rest (n + 1) (max u (k + 1)) with
        | .ok (out, n', u') => .ok (MergedArg.val (actual.getD k default) :: out, n', u')
        | .error e => .error e
      else .error (CurryError.insufficientArguments (k + 1) actual.length)
  | [TemplateEntry.splat], n, u =>
      if kwVals.all (fun v => !v.isPlaceholder) then
        .ok ([MergedArg.seq (actual.drop n)], n + 1,
          if n < actual.length then max u actual.length else u)
      else .error CurryError.misplacedVariadicPlaceholder
  | TemplateEntry.splat :: _ :: _, _, _ => .error CurryError.misplacedVariadicPlaceholder

/-- The keyword pass of `merge_arguments`, over the items of
`merged_default_kwargs`, sharing the `n` and `u` state with the positional
pass.  A variadic placeholder here only requires that no placeholder occurs
among the later keyword values
(`assert_is_last_keyword_placeholder(kwarg_index)`). -/
def mergeKeyword {α : Type} [Inhabited α] (actual : List α) :
    List (String × TemplateEntry α) → Nat → Nat →
    Except CurryError (List (String × MergedArg α) × Nat × Nat)
  | [], n, u => .ok ([], n, u)
  | (key, TemplateEntry.lit a) :: rest, n, u =>
      match mergeKeyword actual rest n u with
      | .ok (out, n', u') => .ok ((key, MergedArg.val a) :: out, n', u')
      | .error e => .error e
  | (key, TemplateEntry.hole) :: rest, n, u =>
      if n < actual.length then
        match mergeKeyword actual rest (n + 1) (max u (n + 1)) with
        | .ok (out, n', u') => .ok ((key, MergedArg.val (actual.getD n default)) :: out, n', u')
        | .error e => .error e
      else .error (CurryError.insufficientArguments (n + 1) actual.length)
  | (key, TemplateEntry.indexed k) :: rest, n, u =>
      if k < actual.length then
        match mergeKeyword actual rest (n + 1) (max u (k + 1)) with
        | .ok (out, n', u') => .ok ((key, MergedArg.val (actual.getD k default)) :: out, n', u')
        | .error e => .error e
      else .error (CurryError.insufficientArguments (k + 1) actual.length)
  | (key, TemplateEntry.splat) :: rest, n, u =>
      if (rest.map Prod.snd).all (fun v => !v.isPlaceholder) then
        match mergeKeyword actual rest (n + 1)
            (if n < actual.length then max u actual.length else u) with
        | .ok (out, n', u') => .ok ((key, MergedArg.seq (actual.drop n)) :: out, n', u')
        | .error e => .error e
      else .error CurryError.misplacedVariadicPlaceholder

/-- Looking a key up in the actual keyword arguments. -/
def lookupActual {α : Type} (actuals : List (String × α)) (k : String) : Option α :=
  (actuals.find? (fun p => p.1 == k)).map (fun p => p.2)

/-- `dict(default_kwargs, **actual_kwargs)`: default keys keep their
insertion order but call-time values override same-named defaults, then the
remaining call-time keys follow. -/
def mergedDefaultKwargs {α : Type} (defaults : List (String × TemplateEntry α))
    (actuals : List (String × α)) : List (String × TemplateEntry α) :=
  defaults.map (fun p =>
    match lookupActual actuals p.1 with
    | some a => (p.1, TemplateEntry.lit a)
    | none => p) ++
  (actuals.filter (fun q => !(defaults.any (fun p => p.1 == q.1)))).map
    (fun q => (q.1, TemplateEntry.lit q.2))

/-- `merge_arguments`: both passes, then the leftover actual arguments past
the largest used index are appended to the positional result
(`merged_args.extend(actual_args[last_used_argument+1:])`). -/
def mergeArguments {α : Type} [Inhabited α] (defaultArgs : List (TemplateEntry α))
    (defaultKwargs : List (String × TemplateEntry α))
    (actualArgs : List α) (actualKwargs : List (String × α)) :
    Except CurryError (List (MergedArg α) × List (String × MergedArg α)) :=
  match mergePositional ((mergedDefaultKwargs defaultKwargs actualKwargs).map Prod.snd)
      actualArgs defaultArgs 0 0 with
  | .error e => .error e
  | .ok (pout, n, u) =>
    match mergeKeyword actualArgs (mergedDefaultKwargs defaultKwargs actualKwargs) n u with
    | .error e => .error e
    | .ok (kout, _, u') => .ok (pout ++ (actualArgs.drop u').map MergedArg.val, kout)

/-- The function returned by `curry`: merge, then invoke the wrapped
callable on the merged arguments. -/
def curryCall {α β : Type} [Inhabited α]
    (f : List (MergedArg α) → List (String × MergedArg α) → β)
    (defaultArgs : List (TemplateEntry α)) (defaultKwargs : List (String × TemplateEntry α))
    (actualArgs : List α) (actualKwargs : List (String × α)) : Except CurryError β :=
  match mergeArguments defaultArgs defaultKwargs actualArgs actualKwargs with
  | .error e => .error e
  | .ok (ma, mk) => .ok (f ma mk)

/-- The `(placeholder_index, last_used + 1)` state update a single template
entry performs, as a function of the actual argument count `L`. -/
def consumeUpd {α : Type} (L : Nat) (s : Nat × Nat) (e : TemplateEntry α) : Nat × Nat :=
  match e with
  | .lit _ => s
  | .hole => (s.1 + 1, max s.2 (s.1 + 1))
  | .indexed k => (s.1 + 1, max s.2 (k + 1))
  | .splat => (s.1 + 1, if s.1 < L then max s.2 L else s.2)

/-- One plus the largest actual argument index consumed by any placeholder
of the two templates, `0` when nothing is consumed: the fold of
`consumeUpd` over the positional template followed by the merged keyword
values. -/
def lastConsumedP1 {α : Type} (defaultArgs kwVals : List (TemplateEntry α)) (L : Nat) : Nat :=
  ((defaultArgs ++ kwVals).foldl (consumeUpd L) (0, 0)).2

/-- A recorder callable: hands back the merged arguments it was invoked
with, so theorems can speak about what the underlying function receives. -/
def recorder {α : Type} :
    List (MergedArg α) → List (String × MergedArg α) →
    List (MergedArg α) × List (String × MergedArg α) :=
  fun a k => (a, k)

/-! ## Helper lemmas about the curry engine -/

theorem foldl_consumeUpd_fst {α : Type} (L : Nat) :
    ∀ (t : List (TemplateEntry α)) (n u : Nat),
      (t.foldl (consumeUpd L) (n, u)).1 = n + countPH t := by
  intro t
  induction t with
  | nil => intro n u; simp [countPH]
  | cons e rest ih =>
    intro n u
    cases e <;> simp [consumeUpd, countPH, TemplateEntry.isPlaceholder, ih] <;> omega

theorem mergePositional_length {α : Type} [Inhabited α] (kwVals : List (TemplateEntry α))
    (actual : List α) :
    ∀ (t : List (TemplateEntry α)) (n u : Nat) (out : List (MergedArg α)) (n' u' : Nat),
      mergePositional kwVals actual t n u = .ok (out, n', u') → out.length = t.length := by
  intro t
  induction t with
  | nil =>
    intro n u out n' u' h
    simp only [mergePositional, Except.ok.injEq, Prod.mk.injEq] at h
    simp [← h.1]
  | cons e rest ih =>
    intro n u out n' u' h
    cases e with
    | lit a =>
      simp only [mergePositional] at h
      cases hrec : mergePositional kwVals actual rest n u with
      | error err => rw [hrec] at h; exact absurd h (by simp)
      | ok s =>
        obtain ⟨out1, n1, u1⟩ := s
        rw [hrec] at h
        simp only [Except.ok.injEq, Prod.mk.injEq] at h
        have := ih n u out1 n1 u1 hrec
        simp [← h.1, this]
    | hole =>
      simp only [mergePositional] at h
      by_cases hn : n < actual.length
      · rw [if_pos hn] at h
        cases hrec : mergePositional kwVals actual rest (n + 1) (max u (n + 1)) with
        | error err => rw [hrec] at h; exact absurd h (by simp)
        | ok s =>
          obtain ⟨out1, n1, u1⟩ := s
          rw [hrec] at h
          simp only [Except.ok.injEq, Prod.mk.injEq] at h
          have := ih (n + 1) (max u (n + 1)) out1 n1 u1 hrec
          simp [← h.1, this]
      · rw [if_neg hn] at h
        exact absurd h (by simp)
    | indexed k =>
      simp only [mergePositional] at h
      by_cases hk : k < actual.length
      · rw [if_pos hk] at h
        cases hrec : mergePositional kwVals actual rest (n + 1) (max u (k + 1)) with
        | error err => rw [hrec] at h; exact absurd h (by simp)
        | ok s =>
          obtain ⟨out1, n1, u1⟩ := s
          rw [hrec] at h
          simp only [Except.ok.injEq, Prod.mk.injEq] at h
          have := ih (n + 1) (max u (k + 1)) out1 n1 u1 hrec
          simp [← h.1, this]
      · rw [if_neg hk] at h
        exact absurd h (by simp)
    | splat =>
      cases rest with
      | nil =>
        simp only [mergePositional] at h
        by_cases hkw : kwVals.all (fun v => !v.isPlaceholder)
        · rw [if_pos hkw] at h
          simp only [Except.ok.injEq, Prod.mk.injEq] at h
          simp [← h.1]
        · rw [if_neg hkw] at h
          exact absurd h (by simp)
      | cons e2 rest2 =>
        simp only [mergePositional] at h
        exact absurd h (by simp)

theorem mergePositional_cursor {α : Type} [Inhabited α] (kwVals : List (TemplateEntry α))
    (actual : List α) :
    ∀ (t : List (TemplateEntry α)) (n u : Nat) (out : List (MergedArg α)) (n' u' : Nat),
      mergePositional kwVals actual t n u = .ok (out, n', u') →
      (n', u') = t.foldl (consumeUpd actual.length) (n, u) := by
  intro t
  induction t with
  | nil =>
    intro n u out n' u' h
    simp only [mergePositional, Except.ok.injEq, Prod.mk.injEq] at h
    simp [← h.2.1, ← h.2.2]
  | cons e rest ih =>
    intro n u out n' u' h
    cases e with
    | lit a =>
      simp only [mergePositional] at h
      cases hrec : mergePositional kwVals actual rest n u with
      | error err => rw [hrec] at h; exact absurd h (by simp)
      | ok s =>
        obtain ⟨out1, n1, u1⟩ := s
        rw [hrec] at h
        simp only [Except.ok.injEq, Prod.mk.injEq] at h
        rw [← h.2.1, ← h.2.2]
        simpa [consumeUpd] using ih n u out1 n1 u1 hrec
    | hole =>
      simp only [mergePositional] at h
      by_cases hn : n < actual.length
      · rw [if_pos hn] at h
        cases hrec : mergePositional kwVals actual rest (n + 1) (max u (n + 1)) with
        | error err => rw [hrec] at h; exact absurd h (by simp)
        | ok s =>
          obtain ⟨out1, n1, u1⟩ := s
          rw [hrec] at h
          simp only [Except.ok.injEq, Prod.mk.injEq] at h
          rw [← h.2.1, ← h.2.2]
          simpa [consumeUpd] using ih (n + 1) (max u (n + 1)) out1 n1 u1 hrec
      · rw [if_neg hn] at h
        exact absurd h (by simp)
    | indexed k =>
      simp only [mergePositional] at h
      by_cases hk : k < actual.length
      · rw [if_pos hk] at h
        cases hrec : mergePositional kwVals actual rest (n + 1) (max u (k + 1)) with
        | error err => rw [hrec] at h; exact absurd h (by simp)
        | ok s =>
          obtain ⟨out1, n1, u1⟩ := s
          rw [hrec] at h
          simp only [Except.ok.injEq, Prod.mk.injEq] at h
          rw [← h.2.1, ← h.2.2]
          simpa [consumeUpd] using ih (n + 1) (max u (k + 1)) out1 n1 u1 hrec
      · rw [if_neg hk] at h
        exact absurd h (by simp)
    | splat =>
      cases rest with
      | nil =>
        simp only [mergePositional] at h
        by_cases hkw : kwVals.all (fun v => !v.isPlaceholder)
        · rw [if_pos hkw] at h
          simp only [Except.ok.injEq, Prod.mk.injEq] at h
          rw [← h.2.1, ← h.2.2]
          simp [consumeUpd]
        · rw [if_neg hkw] at h
          exact absurd h (by simp)
      | cons e2 rest2 =>
        simp only [mergePositional] at h
        exact absurd h (by simp)

theorem mergePositional_getD {α : Type} [Inhabited α] (kwVals : List (TemplateEntry α))
    (actual : List α) :
    ∀ (t : List (TemplateEntry α)) (n u : Nat) (out : List (MergedArg α)) (n' u' : Nat),
      mergePositional kwVals actual t n u = .ok (out, n', u') →
      ∀ i, i < t.length →
        (t.getD i (TemplateEntry.lit default) = TemplateEntry.hole →
          n + countPH (t.take i) < actual.length ∧
          out.getD i (MergedArg.val default) =
            MergedArg.val (actual.getD (n + countPH (t.take i)) default)) ∧
        (∀ k, t.getD i (TemplateEntry.lit default) = TemplateEntry.indexed k →
          k < actual.length ∧
          out.getD i (MergedArg.val default) = MergedArg.val (actual.getD k default)) ∧
        (t.getD i (TemplateEntry.lit default) = TemplateEntry.splat →
          out.getD i (MergedArg.val default) =
            MergedArg.seq (actual.drop (n + countPH (t.take i)))) ∧
        (∀ a, t.getD i (TemplateEntry.lit default) = TemplateEntry.lit a →
          out.getD i (MergedArg.val default) = MergedArg.val a) := by
  intro t
  induction t with
  | nil =>
    intro n u out n' u' _ i hi
    exact absurd hi (by simp)
  | cons e rest ih =>
    intro n u out n' u' h i hi
    cases e with
    | lit a =>
      simp only [mergePositional] at h
      cases hrec : mergePositional kwVals actual rest n u with
      | error err => rw [hrec] at h; exact absurd h (by simp)
      | ok s =>
        obtain ⟨out1, n1, u1⟩ := s
        rw [hrec] at h
        simp only [Except.ok.injEq, Prod.mk.injEq] at h
        rw [← h.1]
        cases i with
        | zero => simp [TemplateEntry.isPlaceholder]
        | succ j =>
          have hj : j < rest.length := by simpa using hi
          have := ih n u out1 n1 u1 hrec j hj
          simpa [countPH, TemplateEntry.isPlaceholder] using this
    | hole =>
      simp only [mergePositional] at h
      by_cases hn : n < actual.length
      · rw [if_pos hn] at h
        cases hrec : mergePositional kwVals actual rest (n + 1) (max u (n + 1)) with
        | error err => rw [hrec] at h; exact absurd h (by simp)
        | ok s =>
          obtain ⟨out1, n1, u1⟩ := s
          rw [hrec] at h
          simp only [Except.ok.injEq, Prod.mk.injEq] at h
          rw [← h.1]
          cases i with
          | zero => simp [TemplateEntry.isPlaceholder, countPH, hn]
          | succ j =>
            have hj : j < rest.length := by simpa using hi
            have hrest := ih (n + 1) (max u (n + 1)) out1 n1 u1 hrec j hj
            have harith : n + countPH (List.take (j + 1) (TemplateEntry.hole :: rest)) =
                n + 1 + countPH (List.take j rest) := by
              simp [countPH, TemplateEntry.isPlaceholder] <;> omega
            simp only [List.getD_cons_succ]
            rw [harith]
            exact hrest
      · rw [if_neg hn] at h
        exact absurd h (by simp)
    | indexed k =>
      simp only [mergePositional] at h
      by_cases hk : k < actual.length
      · rw [if_pos hk] at h
        cases hrec : mergePositional kwVals actual rest (n + 1) (max u (k + 1)) with
        | error err => rw [hrec] at h; exact absurd h (by simp)
        | ok s =>
          obtain ⟨out1, n1, u1⟩ := s
          rw [hrec] at h
          simp only [Except.ok.injEq, Prod.mk.injEq] at h
          rw [← h.1]
          cases i with
          | zero => simp [TemplateEntry.isPlaceholder, countPH, hk]
          | succ j =>
            have hj : j < rest.length := by simpa using hi
            have hrest := ih (n + 1) (max u (k + 1)) out1 n1 u1 hrec j hj
            have harith : n + countPH (List.take (j + 1) (TemplateEntry.indexed k :: rest)) =
                n + 1 + countPH (List.take j rest) := by
              simp [countPH, TemplateEntry.isPlaceholder] <;> omega
            simp only [List.getD_cons_succ]
            rw [harith]
            exact hrest
      · rw [if_neg hk] at h
        exact absurd h (by simp)
    | splat =>
      cases rest with
      | nil =>
        simp only [mergePositional] at h
        by_cases hkw : kwVals.all (fun v => !v.isPlaceholder)
        · rw [if_pos hkw] at h
          simp only [Except.ok.injEq, Prod.mk.injEq] at h
          rw [← h.1]
          cases i with
          | zero => simp [TemplateEntry.isPlaceholder, countPH]
          | succ j => exact absurd hi (by simp)
        · rw [if_neg hkw] at h
          exact absurd h (by simp)
      | cons e2 rest2 =>
        simp only [mergePositional] at h
        exact absurd h (by simp)

theorem mergeKeyword_length {α : Type} [Inhabited α] (actual : List α) :
    ∀ (t : List (String × TemplateEntry α)) (n u : Nat)
      (out : List (String × MergedArg α)) (n' u' : Nat),
      mergeKeyword actual t n u = .ok (out, n', u') → out.length = t.length := by
  intro t
  induction t with
  | nil =>
    intro n u out n' u' h
    simp only [mergeKeyword, Except.ok.injEq, Prod.mk.injEq] at h
    simp [← h.1]
  | cons e rest ih =>
    intro n u out n' u' h
    obtain ⟨key, entry⟩ := e
    cases entry with
    | lit a =>
      simp only [mergeKeyword] at h
      cases hrec : mergeKeyword actual rest n u with
      | error err => rw [hrec] at h; exact absurd h (by simp)
      | ok s =>
        obtain ⟨out1, n1, u1⟩ := s
        rw [hrec] at h
        simp only [Except.ok.injEq, Prod.mk.injEq] at h
        have := ih n u out1 n1 u1 hrec
        simp [← h.1, this]
    | hole =>
      simp only [mergeKeyword] at h
      by_cases hn : n < actual.length
      · rw [if_pos hn] at h
        cases hrec : mergeKeyword actual rest (n + 1) (max u (n + 1)) with
        | error err => rw [hrec] at h; exact absurd h (by simp)
        | ok s =>
          obtain ⟨out1, n1, u1⟩ := s
          rw [hrec] at h
          simp only [Except.ok.injEq, Prod.mk.injEq] at h
          have := ih (n + 1) (max u (n + 1)) out1 n1 u1 hrec
          simp [← h.1, this]
      · rw [if_neg hn] at h
        exact absurd h (by simp)
    | indexed k =>
      simp only [mergeKeyword] at h
      by_cases hk : k < actual.length
      · rw [if_pos hk] at h
        cases hrec : mergeKeyword actual rest (n + 1) (max u (k + 1)) with
        | error err => rw [hrec] at h; exact absurd h (by simp)
        | ok s =>
          obtain ⟨out1, n1, u1⟩ := s
          rw [hrec] at h
          simp only [Except.ok.injEq, Prod.mk.injEq] at h
          have := ih (n + 1) (max u (k + 1)) out1 n1 u1 hrec
          simp [← h.1, this]
      · rw [if_neg hk] at h
        exact absurd h (by simp)
    | splat =>
      simp only [mergeKeyword] at h
      by_cases hkw : (rest.map Prod.snd).all (fun v => !v.isPlaceholder)
      · rw [if_pos hkw] at h
        cases hrec : mergeKeyword actual rest (n + 1)
            (if n < actual.length then max u actual.length else u) with
        | error err => rw [hrec] at h; exact absurd h (by simp)
        | ok s =>
          obtain ⟨out1, n1, u1⟩ := s
          rw [hrec] at h
          simp only [Except.ok.injEq, Prod.mk.injEq] at h
          have := ih (n + 1) (if n < actual.length then max u actual.length else u) out1 n1 u1 hrec
          simp [← h.1, this]
      · rw [if_neg hkw] at h
        exact absurd h (by simp)

theorem mergeKeyword_cursor {α : Type} [Inhabited α] (actual : List α) :
    ∀ (t : List (String × TemplateEntry α)) (n u : Nat)
      (out : List (String × MergedArg α)) (n' u' : Nat),
      mergeKeyword actual t n u = .ok (out, n', u') →
      (n', u') = (t.map Prod.snd).foldl (consumeUpd actual.length) (n, u) := by
  intro t
  induction t with
  | nil =>
    intro n u out n' u' h
    simp only [mergeKeyword, Except.ok.injEq, Prod.mk.injEq] at h
    simp [← h.2.1, ← h.2.2]
  | cons e rest ih =>
    intro n u out n' u' h
    obtain ⟨key, entry⟩ := e
    cases entry with
    | lit a =>
      simp only [mergeKeyword] at h
      cases hrec : mergeKeyword actual rest n u with
      | error err => rw [hrec] at h; exact absurd h (by simp)
      | ok s =>
        obtain ⟨out1, n1, u1⟩ := s
        rw [hrec] at h
        simp only [Except.ok.injEq, Prod.mk.injEq] at h
        rw [← h.2.1, ← h.2.2]
        simpa [consumeUpd] using ih n u out1 n1 u1 hrec
    | hole =>
      simp only [mergeKeyword] at h
      by_cases hn : n < actual.length
      · rw [if_pos hn] at h
        cases hrec : mergeKeyword actual rest (n + 1) (max u (n + 1)) with
        | error err => rw [hrec] at h; exact absurd h (by simp)
        | ok s =>
          obtain ⟨out1, n1, u1⟩ := s
          rw [hrec] at h
          simp only [Except.ok.injEq, Prod.mk.injEq] at h
          rw [← h.2.1, ← h.2.2]
          simpa [consumeUpd] using ih (n + 1) (max u (n + 1)) out1 n1 u1 hrec
      · rw [if_neg hn] at h
        exact absurd h (by simp)
    | indexed k =>
      simp only [mergeKeyword] at h
      by_cases hk : k < actual.length
      · rw [if_pos hk] at h
        cases hrec : mergeKeyword actual rest (n + 1) (max u (k + 1)) with
        | error err => rw [hrec] at h; exact absurd h (by simp)
        | ok s =>
          obtain ⟨out1, n1, u1⟩ := s
          rw [hrec] at h
          simp only [Except.ok.injEq, Prod.mk.injEq] at h
          rw [← h.2.1, ← h.2.2]
          simpa [consumeUpd] using ih (n + 1) (max u (k + 1)) out1 n1 u1 hrec
      · rw [if_neg hk] at h
        exact absurd h (by simp)
    | splat =>
      simp only [mergeKeyword] at h
      by_cases hkw : (rest.map Prod.snd).all (fun v => !v.isPlaceholder)
      · rw [if_pos hkw] at h
        cases hrec : mergeKeyword actual rest (n + 1)
            (if n < actual.length then max u actual.length else u) with
        | error err => rw [hrec] at h; exact absurd h (by simp)
        | ok s =>
          obtain ⟨out1, n1, u1⟩ := s
          rw [hrec] at h
          simp only [Except.ok.injEq, Prod.mk.injEq] at h
          rw [← h.2.1, ← h.2.2]
          simpa [consumeUpd] using
            ih (n + 1) (if n < actual.length then max u actual.length else u) out1 n1 u1 hrec
      · rw [if_neg hkw] at h
        exact absurd h (by simp)

theorem mergeKeyword_getD {α : Type} [Inhabited α] (actual : List α) :
    ∀ (t : List (String × TemplateEntry α)) (n u : Nat)
      (out : List (String × MergedArg α)) (n' u' : Nat),
      mergeKeyword actual t n u = .ok (out, n', u') →
      ∀ j, j < t.length →
        (out.getD j ("", MergedArg.val default)).1 = (t.getD j ("", TemplateEntry.lit default)).1 ∧
        ((t.getD j ("", TemplateEntry.lit default)).2 = TemplateEntry.hole →
          n + countPH ((t.map Prod.snd).take j) < actual.length ∧
          (out.getD j ("", MergedArg.val default)).2 =
            MergedArg.val (actual.getD (n + countPH ((t.map Prod.snd).take j)) default)) ∧
        (∀ k, (t.getD j ("", TemplateEntry.lit default)).2 = TemplateEntry.indexed k →
          k < actual.length ∧
          (out.getD j ("", MergedArg.val default)).2 = MergedArg.val (actual.getD k default)) ∧
        ((t.getD j ("", TemplateEntry.lit default)).2 = TemplateEntry.splat →
          (out.getD j ("", MergedArg.val default)).2 =
            MergedArg.seq (actual.drop (n + countPH ((t.map Prod.snd).take j)))) ∧
        (∀ a, (t.getD j ("", TemplateEntry.lit default)).2 = TemplateEntry.lit a →
          (out.getD j ("", MergedArg.val default)).2 = MergedArg.val a) := by
  intro t
  induction t with
  | nil =>
    intro n u out n' u' _ j hj
    exact absurd hj (by simp)
  | cons e rest ih =>
    intro n u out n' u' h j hj
    obtain ⟨key, entry⟩ := e
    cases entry with
    | lit a =>
      simp only [mergeKeyword] at h
      cases hrec : mergeKeyword actual rest n u with
      | error err => rw [hrec] at h; exact absurd h (by simp)
      | ok s =>
        obtain ⟨out1, n1, u1⟩ := s
        rw [hrec] at h
        simp only [Except.ok.injEq, Prod.mk.injEq] at h
        rw [← h.1]
        cases j with
        | zero => simp [TemplateEntry.isPlaceholder]
        | succ i =>
          have hi : i < rest.length := by simpa using hj
          have := ih n u out1 n1 u1 hrec i hi
          simpa [countPH, TemplateEntry.isPlaceholder] using this
    | hole =>
      simp only [mergeKeyword] at h
      by_cases hn : n < actual.length
      · rw [if_pos hn] at h
        cases hrec : mergeKeyword actual rest (n + 1) (max u (n + 1)) with
        | error err => rw [hrec] at h; exact absurd h (by simp)
        | ok s =>
          obtain ⟨out1, n1, u1⟩ := s
          rw [hrec] at h
          simp only [Except.ok.injEq, Prod.mk.injEq] at h
          rw [← h.1]
          cases j with
          | zero => simp [TemplateEntry.isPlaceholder, countPH, hn]
          | succ i =>
            have hi : i < rest.length := by simpa using hj
            have hrest := ih (n + 1) (max u (n + 1)) out1 n1 u1 hrec i hi
            have harith : n + countPH (List.take (i + 1)
                (((key, TemplateEntry.hole) :: rest).map Prod.snd)) =
                n + 1 + countPH ((rest.map Prod.snd).take i) := by
              simp [countPH, TemplateEntry.isPlaceholder] <;> omega
            simp only [List.getD_cons_succ]
            rw [harith]
            exact hrest
      · rw [if_neg hn] at h
        exact absurd h (by simp)
    | indexed k =>
      simp only [mergeKeyword] at h
      by_cases hk : k < actual.length
      · rw [if_pos hk] at h
        cases hrec : mergeKeyword actual rest (n + 1) (max u (k + 1)) with
        | error err => rw [hrec] at h; exact absurd h (by simp)
        | ok s =>
          obtain ⟨out1, n1, u1⟩ := s
          rw [hrec] at h
          simp only [Except.ok.injEq, Prod.mk.injEq] at h
          rw [← h.1]
          cases j with
          | zero => simp [TemplateEntry.isPlaceholder, countPH, hk]
          | succ i =>
            have hi : i < rest.length := by simpa using hj
            have hrest := ih (n + 1) (max u (k + 1)) out1 n1 u1 hrec i hi
            have harith : n + countPH (List.take (i + 1)
                (((key, TemplateEntry.indexed k) :: rest).map Prod.snd)) =
                n + 1 + countPH ((rest.map Prod.snd).take i) := by
              simp [countPH, TemplateEntry.isPlaceholder] <;> omega
            simp only [List.getD_cons_succ]
            rw [harith]
            exact hrest
      · rw [if_neg hk] at h
        exact absurd h (by simp)
    | splat =>
      simp only [mergeKeyword] at h
      by_cases hkw : (rest.map Prod.snd).all (fun v => !v.isPlaceholder)
      · rw [if_pos hkw] at h
        cases hrec : mergeKeyword actual rest (n + 1)
            (if n < actual.length then max u actual.length else u) with
        | error err => rw [hrec] at h; exact absurd h (by simp)
        | ok s =>
          obtain ⟨out1, n1, u1⟩ := s
          rw [hrec] at h
          simp only [Except.ok.injEq, Prod.mk.injEq] at h
          rw [← h.1]
          cases j with
          | zero => simp [TemplateEntry.isPlaceholder, countPH]
          | succ i =>
            have hi : i < rest.length := by simpa using hj
            have hrest := ih (n + 1) (if n < actual.length then max u actual.length else u)
              out1 n1 u1 hrec i hi
            have harith : n + countPH (List.take (i + 1)
                (((key, TemplateEntry.splat) :: rest).map Prod.snd)) =
                n + 1 + countPH ((rest.map Prod.snd).take i) := by
              simp [countPH, TemplateEntry.isPlaceholder] <;> omega
            simp only [List.getD_cons_succ]
            rw [harith]
            exact hrest
      · rw [if_neg hkw] at h
        exact absurd h (by simp)

theorem mergeArguments_ok_inv {α : Type} [Inhabited α] (dA : List (TemplateEntry α))
    (dK : List (String × TemplateEntry α)) (aA : List α) (aK : List (String × α))
    (args : List (MergedArg α)) (kws : List (String × MergedArg α)) :
    mergeArguments dA dK aA aK = .ok (args, kws) →
    ∃ pout n u kout n2 u',
      mergePositional ((mergedDefaultKwargs dK aK).map Prod.snd) aA dA 0 0 = .ok (pout, n, u) ∧
      mergeKeyword aA (mergedDefaultKwargs dK aK) n u = .ok (kout, n2, u') ∧
      args = pout ++ (aA.drop u').map MergedArg.val ∧ kws = kout := by
  intro h
  unfold mergeArguments at h
  cases hp : mergePositional ((mergedDefaultKwargs dK aK).map Prod.snd) aA dA 0 0 with
  | error err => rw [hp] at h; exact absurd h (by simp)
  | ok s =>
    obtain ⟨pout, n, u⟩ := s
    rw [hp] at h
    cases hk : mergeKeyword aA (mergedDefaultKwargs dK aK) n u with
    | error err => simp only [hk] at h; exact absurd h (by simp)
    | ok s2 =>
      obtain ⟨kout, n2, u'⟩ := s2
      simp only [hk, Except.ok.injEq, Prod.mk.injEq] at h
      exact ⟨pout, n, u, kout, n2, u', rfl, hk, h.1.symm, h.2.symm⟩

theorem countPH_eq_countHoles {α : Type} :
    ∀ l : List (TemplateEntry α),
      (∀ e ∈ l, e = TemplateEntry.hole ∨ ∃ a, e = TemplateEntry.lit a) →
      countPH l = countHoles l := by
  intro l
  induction l with
  | nil => intro _; rfl
  | cons e rest ih =>
    intro hl
    have hrest := ih (fun x hx => hl x (by simp [hx]))
    rcases hl e (by simp) with he | ⟨a, he⟩ <;> subst he <;>
      simp [countPH, countHoles, TemplateEntry.isPlaceholder, hrest] <;> omega

theorem mergedDefaultKwargs_nil {α : Type} (t : List (String × TemplateEntry α)) :
    mergedDefaultKwargs t [] = t := by
  simp [mergedDefaultKwargs, lookupActual]

theorem mergePositional_holes_fail {α : Type} [Inhabited α]
    (kwVals : List (TemplateEntry α)) (aA : List α) :
    ∀ (m n u : Nat), aA.length < n + m → n ≤ aA.length →
      mergePositional kwVals aA (List.replicate m TemplateEntry.hole) n u =
        .error (CurryError.insufficientArguments (aA.length + 1) aA.length) := by
  intro m
  induction m with
  | zero => intro n u h1 h2; omega
  | succ m ih =>
    intro n u h1 h2
    rw [List.replicate_succ]
    by_cases hn : n < aA.length
    · simp only [mergePositional]
      rw [if_pos hn, ih (n + 1) (max u (n + 1)) (by omega) (by omega)]
    · have hn2 : n = aA.length := by omega
      simp only [mergePositional]
      rw [if_neg hn, hn2]

theorem mergePositional_append_splat_free {α : Type} [Inhabited α]
    (kwVals : List (TemplateEntry α)) (aA : List α) :
    ∀ (l1 l2 : List (TemplateEntry α)) (n u : Nat), TemplateEntry.splat ∉ l1 →
      mergePositional kwVals aA (l1 ++ l2) n u =
        match mergePositional kwVals aA l1 n u with
        | .ok (o1, n1, u1) =>
          (match mergePositional kwVals aA l2 n1 u1 with
           | .ok (o2, n2, u2) => .ok (o1 ++ o2, n2, u2)
           | .error e => .error e)
        | .error e => .error e := by
  intro l1
  induction l1 with
  | nil =>
    intro l2 n u _
    simp only [List.nil_append, mergePositional]
    cases mergePositional kwVals aA l2 n u with
    | error err => simp
    | ok s => obtain ⟨o2, n2, u2⟩ := s; simp
  | cons e l1r ih =>
    intro l2 n u hnos
    have hes : e ≠ TemplateEntry.splat := fun hc => hnos (by simp [hc])
    have hnos2 : TemplateEntry.splat ∉ l1r := fun hc => hnos (by simp [hc])
    cases e with
    | lit a =>
      simp only [List.cons_append, mergePositional, List.append_eq]
      rw [ih l2 n u hnos2]
      cases h1 : mergePositional kwVals aA l1r n u with
      | error err => simp [h1]
      | ok s =>
        obtain ⟨o1, n1, u1⟩ := s
        cases h2 : mergePositional kwVals aA l2 n1 u1 with
        | error err => simp [h1, h2]
        | ok s2 => obtain ⟨o2, n2, u2⟩ := s2; simp [h1, h2]
    | hole =>
      simp only [List.cons_append, mergePositional, List.append_eq]
      by_cases hn : n < aA.length
      · rw [if_pos hn, if_pos hn, ih l2 (n + 1) (max u (n + 1)) hnos2]
        cases h1 : mergePositional kwVals aA l1r (n + 1) (max u (n + 1)) with
        | error err => simp [h1]
        | ok s =>
          obtain ⟨o1, n1, u1⟩ := s
          cases h2 : mergePositional kwVals aA l2 n1 u1 with
          | error err => simp [h1, h2]
          | ok s2 => obtain ⟨o2, n2, u2⟩ := s2; simp [h1, h2]
      · rw [if_neg hn, if_neg hn]
    | indexed k =>
      simp only [List.cons_append, mergePositional, List.append_eq]
      by_cases hk : k < aA.length
      · rw [if_pos hk, if_pos hk, ih l2 (n + 1) (max u (k + 1)) hnos2]
        cases h1 : mergePositional kwVals aA l1r (n + 1) (max u (k + 1)) with
        | error err => simp [h1]
        | ok s =>
          obtain ⟨o1, n1, u1⟩ := s
          cases h2 : mergePositional kwVals aA l2 n1 u1 with
          | error err => simp [h1, h2]
          | ok s2 => obtain ⟨o2, n2, u2⟩ := s2; simp [h1, h2]
      · rw [if_neg hk, if_neg hk]
    | splat => exact absurd (by simp) hnos

/-! ## Claim theorems -/

/-- C3: `wrap` classifies every value by first match against the fixed
ordered predicate list module > text > mapping > set > general-iterable >
callable > plain-`Wrapper` default, so classification is deterministic; in
particular a mapping-like value is never classified `Iterable` even when it
also satisfies the iterable predicate, and (not being module- or text-like)
is classified `Mapping`. -/
theorem classify_follows_fixed_order_mapping_wins :
    (∀ t : DuckType, classify t = classifyByOrderingPolicy t) ∧
    (∀ t : DuckType, t.isMapping = true → classify t ≠ Category.iterable) ∧
    (∀ t : DuckType, t.isMapping = true → t.isIterable = true → t.isModule = false →
      t.isText = false → classify t = Category.mapping) := by
  refine ⟨fun t => rfl, ?_, ?_⟩
  · intro t hm
    obtain ⟨m, tx, mp, st, it, cb⟩ := t
    simp only at hm
    subst hm
    cases m <;> cases tx <;> simp [classify, byType, firstMatch]
  · intro t hm hit hmo htx
    obtain ⟨m, tx, mp, st, it, cb⟩ := t
    simp only at hm hit hmo htx
    subst hm; subst hit; subst hmo; subst htx
    simp [classify, byType, firstMatch]

/-- Witness for C3 at a dict-like value: mapping and iterable both hold,
the classification is `Mapping` and not `Iterable`. -/
theorem classify_follows_fixed_order_mapping_wins_witness :
    classify (DuckType.mk false false true false true false) = Category.mapping ∧
    classify (DuckType.mk false false true false true false) ≠ Category.iterable :=
  ⟨classify_follows_fixed_order_mapping_wins.2.2 (DuckType.mk false false true false true false)
      rfl rfl rfl rfl,
    classify_follows_fixed_order_mapping_wins.2.1 (DuckType.mk false false true false true false)
      rfl⟩

/-- C1: for a void-returning operation `f`, `wrap(v).f().self.unwrap()`
yields `v` as modified by `f`'s side effect, not the void result: the node
produced by the call holds the void value, while `self` resolves past the
`CallableWrapper` node to the root node carrying the (mutated) object. -/
theorem self_cascades_past_void_return {α β : Type} (v : α) (m : MethodSim α β)
    (hvoid : m.ret v = none) :
    ((wrapCallExpr v m).2).unwrapAt (wrapCallExpr v m).1 = Unwrapped.ret none ∧
    ((wrapCallExpr v m).2).selfAcc = some (wrapObj α β) ∧
    (wrapObj α β).unwrapAt (wrapCallExpr v m).1 = Unwrapped.obj (m.effect v) := by
  refine ⟨?_, ?_, rfl⟩
  · simp [wrapCallExpr, callMethodNode, getattrMethod, wrapObj, Chain.unwrapAt, hvoid]
  · simp [wrapCallExpr, callMethodNode, getattrMethod, wrapObj, Chain.selfAcc,
      ChainVal.isCallableWrapper]

/-- Witness for C1: a counter at `3` with a void-returning increment method;
`self` resolves to the incremented object `4`. -/
theorem self_cascades_past_void_return_witness :
    ((wrapCallExpr 3 (MethodSim.mk Nat.succ (fun _ => (none : Option Nat)))).2).unwrapAt
        (wrapCallExpr 3 (MethodSim.mk Nat.succ (fun _ => (none : Option Nat)))).1 =
      Unwrapped.ret none ∧
    ((wrapCallExpr 3 (MethodSim.mk Nat.succ (fun _ => (none : Option Nat)))).2).selfAcc =
      some (wrapObj Nat Nat) ∧
    (wrapObj Nat Nat).unwrapAt
        (wrapCallExpr 3 (MethodSim.mk Nat.succ (fun _ => (none : Option Nat)))).1 =
      Unwrapped.obj 4 :=
  self_cascades_past_void_return 3 (MethodSim.mk Nat.succ (fun _ => (none : Option Nat))) rfl

/-- C6 counterexample: calling a wrapped callable does not unwrap
proxy-wrapped arguments.  A probe function that receives a still-wrapped
argument observes it (returning `obj 0`), so the code path differs from the
claimed unwrap-the-arguments semantics, which would deliver `obj 5`. -/
theorem call_does_not_unwrap_arguments_cex :
    callThrough (PyV.wrapperV (PyV.obj 7) none) probeFn [PyV.wrapperV (PyV.obj 5) none] =
      PyV.wrapperV (PyV.obj 0) (some (PyV.wrapperV (PyV.obj 7) none)) ∧
    callThroughSpec (PyV.wrapperV (PyV.obj 7) none) probeFn [PyV.wrapperV (PyV.obj 5) none] =
      PyV.wrapperV (PyV.obj 5) (some (PyV.wrapperV (PyV.obj 7) none)) ∧
    callThrough (PyV.wrapperV (PyV.obj 7) none) probeFn [PyV.wrapperV (PyV.obj 5) none] ≠
      callThroughSpec (PyV.wrapperV (PyV.obj 7) none) probeFn [PyV.wrapperV (PyV.obj 5) none] := by
  refine ⟨rfl, rfl, ?_⟩
  intro hcontra
  simp [callThrough, callThroughSpec, probeFn, pyWrap, PyV.isWrapper, PyV.unwrapV] at hcontra

/-- C6 (amended): calling a wrapped callable through the proxy passes the
arguments to the underlying function unchanged (proxy-wrapped arguments are
not unwrapped); the result is wrapped in a new proxy node whose previous
node is the callable node, unless it is already a wrapper, in which case it
is returned as is. -/
theorem call_passes_arguments_unchanged (fnode : PyV) (f : List PyV → PyV) (args : List PyV) :
    ((f args).isWrapper = false →
      callThrough fnode f args = PyV.wrapperV (f args) (some fnode)) ∧
    ((f args).isWrapper = true → callThrough fnode f args = f args) := by
  constructor
  · intro hnw
    simp [callThrough, pyWrap, hnw]
  · intro hw
    simp [callThrough, pyWrap, hw]

/-- Witness for C6 (amended) at a plain-object result. -/
theorem call_passes_arguments_unchanged_witness :
    (probeFn [PyV.obj 5]).isWrapper = false ∧
    callThrough (PyV.wrapperV (PyV.obj 7) none) probeFn [PyV.obj 5] =
      PyV.wrapperV (probeFn [PyV.obj 5]) (some (PyV.wrapperV (PyV.obj 7) none)) :=
  ⟨rfl, (call_passes_arguments_unchanged (PyV.wrapperV (PyV.obj 7) none) probeFn [PyV.obj 5]).1
    rfl⟩

/-- C9: applying an operator to the each-builder terminates the builder: it
returns the plain unary function `x => op (previousStage x) operand` (never
another builder), and `(each == 3)` applied to `3` returns `true`. -/
theorem operator_application_terminates_builder :
    (∀ (α β γ ρ : Type) (op : β → γ → ρ) (e : EachB α β) (operand : γ),
      makeOperator op e operand =
        OperatorOutcome.plainFunction (fun x => op (e.operation x) operand)) ∧
    (∃ f : Nat → Bool,
      makeOperator (fun a b : Nat => a == b) (eachIdentity Nat) 3 =
        OperatorOutcome.plainFunction f ∧ f 3 = true) :=
  ⟨fun _ _ _ _ _ _ _ => rfl, ⟨fun x => x == 3, rfl, rfl⟩⟩

/-- C10: all placeholder kinds share one consumption cursor advancing once
per placeholder in positional-then-keyword template order, indexed markers
included: a generic hole that is the (k+1)-th placeholder overall consumes
`actualArgs[k]`, and a variadic placeholder collects `actualArgs` from the
shared cursor position onward — in both the positional template and the
merged keyword template (whose holes start at cursor `countPH dA`). -/
theorem curry_shared_cursor {α : Type} [Inhabited α]
    (dA : List (TemplateEntry α)) (dK : List (String × TemplateEntry α))
    (aA : List α) (aK : List (String × α))
    (args : List (MergedArg α)) (kws : List (String × MergedArg α))
    (h : mergeArguments dA dK aA aK = .ok (args, kws)) :
    (∀ i, i < dA.length →
      (dA.getD i (TemplateEntry.lit default) = TemplateEntry.hole →
        countPH (dA.take i) < aA.length ∧
        args.getD i (MergedArg.val default) =
          MergedArg.val (aA.getD (countPH (dA.take i)) default)) ∧
      (dA.getD i (TemplateEntry.lit default) = TemplateEntry.splat →
        args.getD i (MergedArg.val default) = MergedArg.seq (aA.drop (countPH (dA.take i))))) ∧
    (∀ j, j < (mergedDefaultKwargs dK aK).length →
      (((mergedDefaultKwargs dK aK).getD j ("", TemplateEntry.lit default)).2 =
          TemplateEntry.hole →
        countPH dA + countPH (((mergedDefaultKwargs dK aK).map Prod.snd).take j) < aA.length ∧
        (kws.getD j ("", MergedArg.val default)).2 =
          MergedArg.val (aA.getD
            (countPH dA + countPH (((mergedDefaultKwargs dK aK).map Prod.snd).take j))
            default)) ∧
      (((mergedDefaultKwargs dK aK).getD j ("", TemplateEntry.lit default)).2 =
          TemplateEntry.splat →
        (kws.getD j ("", MergedArg.val default)).2 =
          MergedArg.seq (aA.drop
            (countPH dA + countPH (((mergedDefaultKwargs dK aK).map Prod.snd).take j))))) := by
  obtain ⟨pout, n, u, kout, n2, u', hp, hk, hargs, hkws⟩ := mergeArguments_ok_inv _ _ _ _ _ _ h
  have hlen := mergePositional_length _ _ _ _ _ _ _ _ hp
  have hcur := mergePositional_cursor _ _ _ _ _ _ _ _ hp
  have hn : n = countPH dA := by
    have hfst := congrArg Prod.fst hcur
    rw [foldl_consumeUpd_fst] at hfst
    simpa using hfst
  have hkw := mergeKeyword_getD _ _ _ _ _ _ _ hk
  constructor
  · intro i hi
    have hgi := mergePositional_getD _ _ _ _ _ _ _ _ hp i hi
    have hargsi : args.getD i (MergedArg.val default) = pout.getD i (MergedArg.val default) := by
      rw [hargs]
      exact List.getD_append _ _ _ _ (by rw [hlen]; exact hi)
    constructor
    · intro hhole
      obtain ⟨hb, he⟩ := hgi.1 hhole
      exact ⟨by simpa using hb, by rw [hargsi, he]; simp⟩
    · intro hsplat
      have he := hgi.2.2.1 hsplat
      rw [hargsi, he]
      simp
  · intro j hj
    have hgj := hkw j hj
    subst hkws
    subst hn
    exact ⟨fun hhole => hgj.2.1 hhole, fun hsplat => hgj.2.2.2.1 hsplat⟩

/-- Witness for C10: in `curry(_._0, _)('a','b')` the generic hole is the
second placeholder overall (after an indexed one), so it consumes the
actual argument at index 1. -/
theorem curry_shared_cursor_witness :
    countPH (([TemplateEntry.indexed 0, TemplateEntry.hole] :
        List (TemplateEntry String)).take 1) < (["a", "b"] : List String).length ∧
    [MergedArg.val "a", MergedArg.val "b"].getD 1 (MergedArg.val (default : String)) =
      MergedArg.val (["a", "b"].getD
        (countPH (([TemplateEntry.indexed 0, TemplateEntry.hole] :
          List (TemplateEntry String)).take 1)) default) :=
  ((curry_shared_cursor [TemplateEntry.indexed 0, TemplateEntry.hole] [] ["a", "b"] []
      [MergedArg.val "a", MergedArg.val "b"] [] rfl).1 1 (by decide)).1 rfl

/-- C2: with a positional template of literals and generic holes, calling
fills the holes in order of appearance from the actual positional
arguments — the Nth hole receives the Nth actual positional argument; in
particular `curry(hole, 'foo')('bar')` invokes the function with
`('bar', 'foo')`. -/
theorem curry_holes_fill_in_order {α : Type} [Inhabited α] :
    (∀ (dA : List (TemplateEntry α)) (aA : List α) (args : List (MergedArg α))
       (kws : List (String × MergedArg α)),
      (∀ e ∈ dA, e = TemplateEntry.hole ∨ ∃ a, e = TemplateEntry.lit a) →
      mergeArguments dA [] aA [] = .ok (args, kws) →
      ∀ i, i < dA.length → dA.getD i (TemplateEntry.lit default) = TemplateEntry.hole →
        countHoles (dA.take i) < aA.length ∧
        args.getD i (MergedArg.val default) =
          MergedArg.val (aA.getD (countHoles (dA.take i)) default)) ∧
    curryCall recorder [TemplateEntry.hole, TemplateEntry.lit "foo"] [] ["bar"] [] =
      .ok ([MergedArg.val "bar", MergedArg.val "foo"], []) := by
  constructor
  · intro dA aA args kws hT h i hi hhole
    obtain ⟨pout, n, u, kout, n2, u', hp, hk, hargs, hkws⟩ := mergeArguments_ok_inv _ _ _ _ _ _ h
    have hlen := mergePositional_length _ _ _ _ _ _ _ _ hp
    have hgi := mergePositional_getD _ _ _ _ _ _ _ _ hp i hi
    obtain ⟨hb, he⟩ := hgi.1 hhole
    have hch : countPH (dA.take i) = countHoles (dA.take i) :=
      countPH_eq_countHoles _ (fun e hee => hT e (List.take_subset _ _ hee))
    have hargsi : args.getD i (MergedArg.val default) = pout.getD i (MergedArg.val default) := by
      rw [hargs]
      exact List.getD_append _ _ _ _ (by rw [hlen]; exact hi)
    refine ⟨by rw [← hch]; simpa using hb, ?_⟩
    rw [hargsi, he, ← hch]
    simp
  · rfl

/-- Witness for C2 at `curry(hole, 'foo')('bar')`: the first (and only)
hole receives the actual argument at index 0. -/
theorem curry_holes_fill_in_order_witness :
    countHoles (([TemplateEntry.hole, TemplateEntry.lit "foo"] :
        List (TemplateEntry String)).take 0) < (["bar"] : List String).length ∧
    [MergedArg.val "bar", MergedArg.val "foo"].getD 0 (MergedArg.val (default : String)) =
      MergedArg.val (["bar"].getD
        (countHoles (([TemplateEntry.hole, TemplateEntry.lit "foo"] :
          List (TemplateEntry String)).take 0)) default) :=
  curry_holes_fill_in_order.1 [TemplateEntry.hole, TemplateEntry.lit "foo"] ["bar"]
    [MergedArg.val "bar", MergedArg.val "foo"] []
    (by simp) rfl 0 (by decide) rfl

/-- C5: an indexed placeholder `#k` resolves to `actualArgs[k]` directly,
regardless of hole order, allowing reordering and duplication; in
particular `curry(#1, #0)('x','y')` invokes the function with
`('y','x')` and `curry(#0, #0)('x')` with `('x','x')`. -/
theorem curry_indexed_resolves_directly {α : Type} [Inhabited α] :
    (∀ (dA : List (TemplateEntry α)) (dK : List (String × TemplateEntry α))
       (aA : List α) (aK : List (String × α)) (args : List (MergedArg α))
       (kws : List (String × MergedArg α)),
      mergeArguments dA dK aA aK = .ok (args, kws) →
      ∀ i k, i < dA.length → dA.getD i (TemplateEntry.lit default) = TemplateEntry.indexed k →
        k < aA.length ∧
        args.getD i (MergedArg.val default) = MergedArg.val (aA.getD k default)) ∧
    curryCall recorder [TemplateEntry.indexed 1, TemplateEntry.indexed 0] [] ["x", "y"] [] =
      .ok ([MergedArg.val "y", MergedArg.val "x"], []) ∧
    curryCall recorder [TemplateEntry.indexed 0, TemplateEntry.indexed 0] [] ["x"] [] =
      .ok ([MergedArg.val "x", MergedArg.val "x"], []) := by
  refine ⟨?_, rfl, rfl⟩
  intro dA dK aA aK args kws h i k hi hidx
  obtain ⟨pout, n, u, kout, n2, u', hp, hk, hargs, hkws⟩ := mergeArguments_ok_inv _ _ _ _ _ _ h
  have hlen := mergePositional_length _ _ _ _ _ _ _ _ hp
  have hgi := mergePositional_getD _ _ _ _ _ _ _ _ hp i hi
  obtain ⟨hb, he⟩ := hgi.2.1 k hidx
  have hargsi : args.getD i (MergedArg.val default) = pout.getD i (MergedArg.val default) := by
    rw [hargs]
    exact List.getD_append _ _ _ _ (by rw [hlen]; exact hi)
  exact ⟨hb, by rw [hargsi, he]⟩

/-- Witness for C5 at `curry(#1, #0)('x','y')`: the placeholder `#1` in
first position receives the actual argument at index 1. -/
theorem curry_indexed_resolves_directly_witness :
    1 < (["x", "y"] : List String).length ∧
    [MergedArg.val "y", MergedArg.val "x"].getD 0 (MergedArg.val (default : String)) =
      MergedArg.val (["x", "y"].getD 1 default) :=
  curry_indexed_resolves_directly.1 [TemplateEntry.indexed 1, TemplateEntry.indexed 0] []
    ["x", "y"] [] [MergedArg.val "y", MergedArg.val "x"] [] rfl 0 1 (by decide) rfl

/-- C7: a placeholder that cannot be satisfied by the actual positional
argument list is a hard failure carrying the count needed for the first
unsatisfiable placeholder and the count received; in particular
`curry(hole, hole)('onlyOne')` fails with required=2, received=1. -/
theorem curry_insufficient_arguments {α : Type} [Inhabited α] :
    (∀ (m : Nat) (aA : List α), aA.length < m →
      mergeArguments (List.replicate m TemplateEntry.hole) [] aA [] =
        .error (CurryError.insufficientArguments (aA.length + 1) aA.length)) ∧
    (∀ (k : Nat) (aA : List α), aA.length ≤ k →
      mergeArguments [TemplateEntry.indexed k] [] aA [] =
        .error (CurryError.insufficientArguments (k + 1) aA.length)) ∧
    curryCall recorder [TemplateEntry.hole, TemplateEntry.hole] [] ["onlyOne"] [] =
      .error (CurryError.insufficientArguments 2 1) := by
  refine ⟨?_, ?_, rfl⟩
  · intro m aA hm
    unfold mergeArguments
    rw [mergePositional_holes_fail _ _ m 0 0 (by omega) (by omega)]
  · intro k aA hk
    unfold mergeArguments
    simp only [mergePositional]
    rw [if_neg (by omega)]

/-- Witness for C7: `curry(hole, hole)('onlyOne')` raises
`InsufficientArguments` with required=2, received=1. -/
theorem curry_insufficient_arguments_witness :
    mergeArguments (List.replicate 2 TemplateEntry.hole) [] ["onlyOne"] [] =
      .error (CurryError.insufficientArguments 2 1) :=
  curry_insufficient_arguments.1 2 ["onlyOne"] (by decide)

/-- C4 counterexample: a keyword variadic placeholder followed by a literal
keyword entry is not the final template entry, yet the call succeeds
(collecting all actual positional arguments) instead of raising
`MisplacedVariadicPlaceholder`. -/
theorem variadic_keyword_trailing_literal_cex :
    mergeArguments [] [("x", TemplateEntry.splat), ("y", TemplateEntry.lit 5)] [1, 2] [] =
      .ok ([], [("x", MergedArg.seq [1, 2]), ("y", MergedArg.val 5)]) ∧
    mergeArguments [] [("x", TemplateEntry.splat), ("y", TemplateEntry.lit 5)] [1, 2] [] ≠
      .error CurryError.misplacedVariadicPlaceholder :=
  ⟨rfl, fun hcontra => Except.noConfusion
    ((rfl : mergeArguments [] [("x", TemplateEntry.splat), ("y", TemplateEntry.lit 5)] [1, 2] [] =
      .ok ([], [("x", MergedArg.seq [1, 2]), ("y", MergedArg.val 5)])).symm.trans hcontra)⟩

/-- C4 (amended): a variadic placeholder collects all remaining actual
positional arguments from the shared consumption cursor onward
(`curry(1, variadic)(2,3)` calls `function(1,(2,3))`).  A positional
variadic with any later positional entry, or with any placeholder among
the keyword template values, raises `MisplacedVariadicPlaceholder` at call
time, as does a keyword variadic followed by a later keyword placeholder;
only literal keyword entries may follow a keyword variadic. -/
theorem variadic_placement_rules {α : Type} [Inhabited α] :
    (curryCall recorder [TemplateEntry.lit 1, TemplateEntry.splat] [] [2, 3] [] =
      .ok ([MergedArg.val 1, MergedArg.seq [2, 3]], [])) ∧
    (∀ (e : TemplateEntry α) (rest : List (TemplateEntry α))
       (dK : List (String × TemplateEntry α)) (aA : List α) (aK : List (String × α)),
      mergeArguments (TemplateEntry.splat :: e :: rest) dK aA aK =
        .error CurryError.misplacedVariadicPlaceholder) ∧
    (∀ (pre : List (TemplateEntry α)) (e : TemplateEntry α) (rest : List (TemplateEntry α))
       (dK : List (String × TemplateEntry α)) (aA : List α) (aK : List (String × α))
       (s : List (MergedArg α) × Nat × Nat),
      TemplateEntry.splat ∉ pre →
      mergePositional ((mergedDefaultKwargs dK aK).map Prod.snd) aA pre 0 0 = .ok s →
      mergeArguments (pre ++ TemplateEntry.splat :: e :: rest) dK aA aK =
        .error CurryError.misplacedVariadicPlaceholder) ∧
    (∀ (aA : List α) (dK : List (String × TemplateEntry α)) (aK : List (String × α)),
      ((mergedDefaultKwargs dK aK).map Prod.snd).all (fun v => !v.isPlaceholder) = false →
      mergeArguments [TemplateEntry.splat] dK aA aK =
        .error CurryError.misplacedVariadicPlaceholder) ∧
    (∀ (key : String) (rest : List (String × TemplateEntry α)) (aA : List α),
      (rest.map Prod.snd).all (fun v => !v.isPlaceholder) = false →
      mergeArguments [] ((key, TemplateEntry.splat) :: rest) aA [] =
        .error CurryError.misplacedVariadicPlaceholder) := by
  refine ⟨rfl, ?_, ?_, ?_, ?_⟩
  · intro e rest dK aA aK
    unfold mergeArguments
    simp only [mergePositional]
  · intro pre e rest dK aA aK s hnos hp
    obtain ⟨o1, n1, u1⟩ := s
    unfold mergeArguments
    rw [mergePositional_append_splat_free _ _ pre _ 0 0 hnos, hp]
    simp only [mergePositional]
  · intro aA dK aK hkw
    unfold mergeArguments
    simp only [mergePositional]
    rw [if_neg (by simp [hkw])]
  · intro key rest aA hkw
    unfold mergeArguments
    rw [mergedDefaultKwargs_nil]
    simp only [mergePositional, mergeKeyword]
    rw [if_neg (by simp [hkw])]

/-- Witness for C4 at `curry(9, variadic, 1)(2,3)`: the variadic is not the
last positional entry, so the call raises `MisplacedVariadicPlaceholder`. -/
theorem variadic_placement_rules_witness :
    mergeArguments ([TemplateEntry.lit 9] ++ TemplateEntry.splat :: TemplateEntry.lit 1 :: [])
        [] [2, 3] [] = .error CurryError.misplacedVariadicPlaceholder :=
  variadic_placement_rules.2.2.1 [TemplateEntry.lit 9] (TemplateEntry.lit 1) [] [] [2, 3] []
    ([MergedArg.val 9], 0, 0) (by decide) rfl

/-- C8 counterexample: with template `curry(#1)` called on `('x','y')`, the
actual argument 'x' at index 0 is consumed by no placeholder, yet it is
dropped: the merged positional arguments are just `('y')`. -/
theorem curry_drops_skipped_arguments_cex :
    mergeArguments [TemplateEntry.indexed 1] [] ["x", "y"] [] =
      .ok ([MergedArg.val "y"], []) ∧
    MergedArg.val "x" ∉ ([MergedArg.val "y"] : List (MergedArg String)) :=
  ⟨rfl, by simp⟩

/-- C8 (amended): the actual positional arguments appended after the
per-template-entry results are exactly those past the largest index
consumed by any placeholder; actual arguments at unconsumed indices below
that point are dropped (the docstring's "ignore all in between"). -/
theorem curry_leftovers_after_last_consumed {α : Type} [Inhabited α]
    (dA : List (TemplateEntry α)) (dK : List (String × TemplateEntry α))
    (aA : List α) (aK : List (String × α)) (args : List (MergedArg α))
    (kws : List (String × MergedArg α))
    (h : mergeArguments dA dK aA aK = .ok (args, kws)) :
    ∃ core : List (MergedArg α), core.length = dA.length ∧
      args = core ++
        (aA.drop (lastConsumedP1 dA ((mergedDefaultKwargs dK aK).map Prod.snd) aA.length)).map
          MergedArg.val := by
  obtain ⟨pout, n, u, kout, n2, u', hp, hk, hargs, hkws⟩ := mergeArguments_ok_inv _ _ _ _ _ _ h
  have hlen := mergePositional_length _ _ _ _ _ _ _ _ hp
  have hcur := mergePositional_cursor _ _ _ _ _ _ _ _ hp
  have hkcur := mergeKeyword_cursor _ _ _ _ _ _ _ hk
  refine ⟨pout, hlen, ?_⟩
  rw [hargs]
  have hu : u' = lastConsumedP1 dA ((mergedDefaultKwargs dK aK).map Prod.snd) aA.length := by
    unfold lastConsumedP1
    rw [List.foldl_append, ← hcur, ← hkcur]
  rw [hu]

/-- Witness for C8 (amended) at `curry(hole)('a','b')`: the hole consumes
index 0 and the leftover 'b' is appended. -/
theorem curry_leftovers_after_last_consumed_witness :
    ∃ core : List (MergedArg String),
      core.length = ([TemplateEntry.hole] : List (TemplateEntry String)).length ∧
      [MergedArg.val "a", MergedArg.val "b"] = core ++
        ((["a", "b"] : List String).drop
          (lastConsumedP1 [TemplateEntry.hole]
            ((mergedDefaultKwargs ([] : List (String × TemplateEntry String)) []).map Prod.snd)
            (["a", "b"] : List String).length)).map MergedArg.val :=
  curry_leftovers_after_last_consumed [TemplateEntry.hole] [] ["a", "b"] []
    [MergedArg.val "a", MergedArg.val "b"] [] rfl

end FluentPy
